import Mathlib

/-!
Verification of the record-extraction / normalization / totals pipeline of
`app.py` (a batch converter of fixed-layout text reports into PDF summaries).

The shallow embedding below follows the Python source:

* `ROW_RE = re.compile(r"^\s*(\d{7})\s+(\d+)\s+(\d+)\s+(-?\d+)\b", re.MULTILINE)`
  is modelled by the deterministic matcher `matchRow` together with the
  scanner `scanAux` / `findAll` (the pattern has no backtracking: every
  adjacent pair of sub-patterns has disjoint first-character classes, so
  greedy matching is exact).
* `parse_txt` (extract, build records, `drop_duplicates`, `sort_values`)
  is modelled by `parse_txt` built from `findAll`, `toRecord`, `dedupe`
  and `normalize`.
* the totals computed in `build_pdf` with `Decimal` arithmetic
  (`ROUND_HALF_UP` = ties away from zero) are modelled over `ℚ` by
  `totale`, `iva`, `ivato` with `quantize2` / `roundHalfAwayZ`.
* `eur_fmt` is modelled character by character, including the three
  replace steps and the literal suffix of the source file.
* the `main` batch loop is modelled by `mainLoop` over per-file outcomes.
-/

namespace Riepilogo

open scoped List

/-! ### Character classes (Python `\s`, `\d`, `\w` on the relevant inputs) -/

/-- Python regex `\s` (ASCII whitespace as in `str` mode for the byte range
produced by a latin-1 decode of a text report). -/
def isWS (c : Char) : Bool :=
  c = ' ' || c = '\t' || c = '\n' || c = '\r' || c = '\x0b' || c = '\x0c'

/-- Python regex `\w` (word character), used only for the `\b` boundary test
after a digit: a digit, letter or underscore. -/
def isWordChar (c : Char) : Bool :=
  c.isAlphanum || c = '_'

/-! ### The row pattern `^\s*(\d{7})\s+(\d+)\s+(\d+)\s+(-?\d+)\b` -/

/-- One raw regex match: the four captured groups of `ROW_RE`, as character
lists (`g` = 7-digit guarantee number, `s` = suffix, `j` = job,
`t` = job total, possibly with a leading `-`). -/
structure RawMatch where
  g : List Char
  s : List Char
  j : List Char
  t : List Char
deriving Repr, DecidableEq

/-- Pattern `\d{N}`: consume exactly `n` digits, returning them and the rest. -/
def takeDigitsN : Nat → List Char → Option (List Char × List Char)
  | 0, cs => some ([], cs)
  | _ + 1, [] => none
  | n + 1, c :: cs =>
    if c.isDigit then
      match takeDigitsN n cs with
      | some (ds, rest) => some (c :: ds, rest)
      | none => none
    else none

/-- Pattern `\s+`: require at least one whitespace character, consume greedily. -/
def spanWS1 (cs : List Char) : Option (List Char) :=
  match cs with
  | c :: rest => if isWS c then some (rest.dropWhile isWS) else none
  | [] => none

/-- Pattern `\d+`: require at least one digit, consume greedily; returns the digits
and the rest. -/
def spanDigits1 (cs : List Char) : Option (List Char × List Char) :=
  match cs with
  | c :: _ => if c.isDigit then some (cs.takeWhile Char.isDigit, cs.dropWhile Char.isDigit) else none
  | [] => none

/-- The `-?` of the row pattern: consume a leading minus sign when present,
recording whether one was seen. -/
def splitSign (cs : List Char) : Bool × List Char :=
  match cs with
  | '-' :: r => (true, r)
  | _ => (false, cs)

/-- Attempt to match `\s*(\d{7})\s+(\d+)\s+(\d+)\s+(-?\d+)\b` at the current
position (the `^` anchor is handled by the scanner).  Returns the four
groups and the unconsumed rest on success.  The pattern is deterministic, so
greedy matching without backtracking is faithful to the Python regex. -/
def matchRow (cs0 : List Char) : Option (RawMatch × List Char) :=
  match takeDigitsN 7 (cs0.dropWhile isWS) with
  | none => none
  | some (g, cs2) =>
    match spanWS1 cs2 with
    | none => none
    | some cs3 =>
      match spanDigits1 cs3 with
      | none => none
      | some (s, cs4) =>
        match spanWS1 cs4 with
        | none => none
        | some cs5 =>
          match spanDigits1 cs5 with
          | none => none
          | some (j, cs6) =>
            match spanWS1 cs6 with
            | none => none
            | some cs7 =>
              match spanDigits1 (splitSign cs7).2 with
              | none => none
              | some (t, cs9) =>
                let tt := if (splitSign cs7).1 then '-' :: t else t
                -- `\b`: the previous character is a digit (a word
                -- character), so the next character must not be a word
                -- character (or we are at the end).
                match cs9 with
                | [] => some (⟨g, s, j, tt⟩, [])
                | c :: _ => if isWordChar c then none else some (⟨g, s, j, tt⟩, cs9)

/-- Scanner for `ROW_RE.findall`: try the (line-anchored) pattern at every
position where `^` holds in `re.MULTILINE` mode — the start of the text and
every position right after a `'\n'` — and continue after the end of each
match (matches are non-overlapping, as in `findall`).  `fuel` bounds the
recursion; every step consumes at least one character, and a successful
match ends in a digit, so scanning resumes with the anchor flag off. -/
def scanAux : Nat → Bool → List Char → List RawMatch
  | 0, _, _ => []
  | _ + 1, _, [] => []
  | fuel + 1, atStart, c :: rest =>
    if atStart then
      match matchRow (c :: rest) with
      | some (m, remainder) => m :: scanAux fuel false remainder
      | none => scanAux fuel (c = '\n') rest
    else
      scanAux fuel (c = '\n') rest

/-- Model of `ROW_RE.findall(text)`: all raw matches of the row pattern. -/
def findAll (text : List Char) : List RawMatch :=
  scanAux (text.length + 1) true text

/-! ### Records (`pd.DataFrame` rows after the dtype conversions) -/

/-- One parsed row of the report, after the conversions at the top of
`parse_txt`: `NUMERO GARANZIA` and `SUFFISSO` stay strings, `JOB` and
`TOTALE JOB` become integers. -/
structure Record where
  guaranteeNumber : String
  suffix : String
  job : Int
  jobTotal : Int
deriving Repr, DecidableEq

/-- Decimal value of a digit string (most significant digit first). -/
def digitsToNat (cs : List Char) : Nat :=
  cs.foldl (fun a c => a * 10 + (c.toNat - 48)) 0

/-- Value of an optionally `-`-signed digit string, as produced by
`pd.to_numeric` on the regex groups (the regex guarantees this shape, so
`fillna(0)` never fires). -/
def intOfDigitString (cs : List Char) : Int :=
  match cs with
  | '-' :: rest => -(digitsToNat rest : Int)
  | _ => (digitsToNat cs : Int)

/-- Build a `Record` from a raw match (the dtype conversions of
`parse_txt`). -/
def toRecord (m : RawMatch) : Record :=
  { guaranteeNumber := String.mk m.g
    suffix := String.mk m.s
    job := intOfDigitString m.j
    jobTotal := intOfDigitString m.t }

/-- The extractor output before dedup/sort: records of all raw matches. -/
def rawRecords (text : String) : List Record :=
  (findAll text.data).map toRecord

/-! ### Deduplication (`drop_duplicates(subset=[...], keep="first")`) -/

/-- The dedup key: the `(NUMERO GARANZIA, SUFFISSO, JOB)` triple. -/
def dedupKey (r : Record) : String × String × Int :=
  (r.guaranteeNumber, r.suffix, r.job)

/-- First-seen-wins filter: keep a record iff its key has not been seen in an
earlier row (`seen` collects the keys of already-processed rows). -/
def dedupeAux : List (String × String × Int) → List Record → List Record
  | _, [] => []
  | seen, r :: rs =>
    if dedupKey r ∈ seen then dedupeAux seen rs
    else r :: dedupeAux (dedupKey r :: seen) rs

/-- Model of `df.drop_duplicates(subset=["NUMERO GARANZIA", "SUFFISSO", "JOB"], keep="first")`. -/
def dedupe (l : List Record) : List Record :=
  dedupeAux [] l

/-! ### Sorting (`sort_values(by=[...], key=lambda c: pd.to_numeric(c, errors="ignore"))`) -/

/-- Model of `pd.to_numeric` on one string cell, restricted to the integer
shapes that occur in this program: an optionally `-`-signed non-empty digit
string parses to its integer value, anything else fails.  (With
`errors="ignore"` a failure anywhere makes pandas return the whole column
unconverted, which is captured by `colNumeric` below.) -/
def toNumericZ (s : String) : Option Int :=
  match s.data with
  | [] => none
  | c :: rest =>
    if c = '-' then
      if !rest.isEmpty && rest.all Char.isDigit then some (-(digitsToNat rest : Int)) else none
    else
      if (c :: rest).all Char.isDigit then some ((digitsToNat (c :: rest) : Int)) else none

/-- Whether `pd.to_numeric(column, errors="ignore")` converts the column:
true iff every cell parses. -/
def colNumeric (get : Record → String) (rs : List Record) : Bool :=
  rs.all fun r => (toNumericZ (get r)).isSome

/-- Numeric key of a cell (only used when the whole column parses). -/
def numVal (s : String) : Int :=
  (toNumericZ s).getD 0

/-- Lexicographic (code-point) strict order on strings, Python `<`. -/
def strLtB : List Char → List Char → Bool
  | [], [] => false
  | [], _ :: _ => true
  | _ :: _, [] => false
  | a :: as, b :: bs =>
    if a.toNat < b.toNat then true
    else if b.toNat < a.toNat then false
    else strLtB as bs

/-- Strict order on one sort column: numeric when the column converted,
code-point order on the raw text otherwise. -/
def fieldLtB (numeric : Bool) (a b : String) : Bool :=
  if numeric then decide (numVal a < numVal b) else strLtB a.data b.data

/-- Equality on one sort column under the same key. -/
def fieldEqB (numeric : Bool) (a b : String) : Bool :=
  if numeric then decide (numVal a = numVal b) else a == b

/-- The total preorder realised by the ascending three-column sort:
lexicographic on (guarantee-number key, suffix key, job).  `ng`/`ns` say
whether the guarantee-number / suffix columns converted to numbers; the job
column is already integer, so `pd.to_numeric` is the identity there. -/
def rowLe (ng ns : Bool) (a b : Record) : Bool :=
  fieldLtB ng a.guaranteeNumber b.guaranteeNumber ||
  (fieldEqB ng a.guaranteeNumber b.guaranteeNumber &&
    (fieldLtB ns a.suffix b.suffix ||
     (fieldEqB ns a.suffix b.suffix && decide (a.job ≤ b.job))))

/-- Relation form of `rowLe` (decidable), for use with `List.insertionSort`. -/
def rowLeR (ng ns : Bool) (a b : Record) : Prop :=
  rowLe ng ns a b = true

instance (ng ns : Bool) : DecidableRel (rowLeR ng ns) :=
  fun a b => instDecidableEqBool (rowLe ng ns a b) true

/-- The normalizer: dedupe, then the stable ascending three-column sort of
`sort_values` (pandas sorts by several columns with a stable lexicographic
sort; any stable sorting algorithm applied to the induced total preorder
produces the same, unique, stably-sorted output, here realised by the
stable `List.insertionSort`). -/
def normalize (l : List Record) : List Record :=
  let d := dedupe l
  List.insertionSort
    (rowLeR (colNumeric (fun r => r.guaranteeNumber) d) (colNumeric (fun r => r.suffix) d)) d

/-! ### `parse_txt` -/

/-- The message of the `ValueError` raised when no line matches (the
`NoValidRecordsError` of the specification). -/
def NoValidRecordsMsg : String :=
  "Nessuna riga valida trovata nel TXT (controlla il formato)."

/-- Model of `parse_txt`, as a function of the decoded text content: extract all raw
matches, fail when there are none, otherwise build, dedupe and sort the
records. -/
def parse_txt (text : String) : Except String (List Record) :=
  let ms := findAll text.data
  if ms.isEmpty then Except.error NoValidRecordsMsg
  else Except.ok (normalize (ms.map toRecord))

/-! ### Well-formedness of extracted records (shape forced by the regex) -/

/-- Shape of a record produced by the extractor: the guarantee number is
exactly 7 digit characters, the suffix is a non-empty digit string. -/
def Record.wfB (r : Record) : Bool :=
  r.guaranteeNumber.data.length = 7 && r.guaranteeNumber.data.all Char.isDigit &&
  !r.suffix.data.isEmpty && r.suffix.data.all Char.isDigit

/-- Shape of the captured groups forced by the regex: 7 digits, then a
non-empty digit string (the suffix). -/
def RawMatch.wfB (m : RawMatch) : Bool :=
  m.g.length == 7 && m.g.all Char.isDigit && !m.s.isEmpty && m.s.all Char.isDigit

/-- Specification-side description of the dedup stage, following the spec's
words: keep the first record, remove every later record whose
`(guaranteeNumber, suffix, job)` triple duplicates it, and recurse on what
is left — an order-preserving, first-seen-wins filter.  Compared against
the source-side `dedupe` in the C2 theorem. -/
def dedupeSpec : List Record → List Record
  | [] => []
  | r :: rs => r :: dedupeSpec (rs.filter fun x => !(dedupKey x == dedupKey r))
termination_by l => l.length
decreasing_by
  simp only [List.length_cons]
  exact Nat.lt_succ_of_le (List.length_filter_le _ _)

/-! ### Totals (`build_pdf`, lines 57–59: `Decimal` arithmetic, `ROUND_HALF_UP`) -/

/-- Model of `totale = Decimal(int(df["TOTALE JOB"].astype(int).sum()))`: the exact
integer sum of the job totals. -/
def totale (rs : List Record) : Int :=
  (rs.map fun r => r.jobTotal).sum

/-- Round a rational to the nearest integer with ties away from zero:
the semantics of `decimal.ROUND_HALF_UP`. -/
def roundHalfAwayZ (q : ℚ) : ℤ :=
  if 0 ≤ q then ⌊q + 1 / 2⌋ else ⌈q - 1 / 2⌉

/-- Model of `x.quantize(Decimal("0.01"), rounding=ROUND_HALF_UP)`: round to two
decimal places, ties away from zero.  `Decimal` arithmetic is exact
fixed-point arithmetic, so the model works on exact rationals. -/
def quantize2 (q : ℚ) : ℚ :=
  (roundHalfAwayZ (q * 100) : ℚ) / 100

/-- Model of `iva = (totale * Decimal("0.22")).quantize(Decimal("0.01"), ROUND_HALF_UP)`. -/
def iva (rs : List Record) : ℚ :=
  quantize2 ((totale rs : ℚ) * (22 / 100))

/-- Model of `ivato = (totale + iva).quantize(Decimal("0.01"), ROUND_HALF_UP)`. -/
def ivato (rs : List Record) : ℚ :=
  quantize2 ((totale rs : ℚ) + iva rs)

/-! ### Currency formatting (`eur_fmt`) -/

/-- Decimal digit character of `n < 10`. -/
def digitChar (n : Nat) : Char :=
  Char.ofNat (48 + n)

/-- Decimal digits of a natural number, least significant digit first
(`[0]` for `0`); `fuel` bounds the recursion and `n + 1` always suffices. -/
def natDigitsRevAux : Nat → Nat → List Char
  | 0, _ => []
  | fuel + 1, n =>
    if n < 10 then [digitChar n]
    else digitChar (n % 10) :: natDigitsRevAux fuel (n / 10)

/-- Decimal digits, least significant first. -/
def natDigitsRev (n : Nat) : List Char :=
  natDigitsRevAux (n + 1) n

/-- Insert the thousands separator `','` after every third digit, working on
the reversed (least-significant-first) digit list — the grouping of the
Python format spec `{:,}`. -/
def group3Rev : List Char → List Char
  | d1 :: d2 :: d3 :: d4 :: rest => d1 :: d2 :: d3 :: ',' :: group3Rev (d4 :: rest)
  | l => l

/-- Model of `f"{q:,.2f}"` for a `Decimal` `q` with exponent `-2` given as a signed
number of cents: optional sign, thousands-grouped integer part with `','`,
then `'.'` and exactly two fractional digits. -/
def pyFormatCents (c : Int) : List Char :=
  let a := c.natAbs
  let intGrouped := (group3Rev (natDigitsRev (a / 100))).reverse
  let frac := [digitChar (a / 10 % 10), digitChar (a % 10)]
  (if c < 0 then ['-'] else []) ++ intGrouped ++ '.' :: frac

/-- Single-character replacement: Python `str.replace` with one-character
pattern and replacement is exactly a character map. -/
def repl (x y c : Char) : Char :=
  if c = x then y else c

/-- The literal appended by `eur_fmt` in the source file: a space followed by
the three characters U+00E2, U+201A, U+00AC (`"â‚¬"`) — the UTF-8 bytes of
the euro sign `'€'` misdecoded as cp1252, as they stand in `app.py` line 54. -/
def euroSuffix : List Char :=
  [' ', Char.ofNat 0xE2, Char.ofNat 0x201A, Char.ofNat 0xAC]

/-- The string built by `eur_fmt` from the quantized value (in cents):
format with the Python `{:,.2f}` spec, swap `','` and `'.'` via the three
`replace` calls (a single-character `str.replace` is a character map), and
append the currency suffix as it appears in the source. -/
def eur_fmtCents (cents : ℤ) : String :=
  let s := pyFormatCents cents
  let s := s.map (repl ',' 'X')
  let s := s.map (repl '.' ',')
  let s := s.map (repl 'X' '.')
  String.mk (s ++ euroSuffix)

/-- Model of `eur_fmt`: quantize to cents (half away from zero), then format. -/
def eur_fmt (val : ℚ) : String :=
  eur_fmtCents (roundHalfAwayZ (val * 100))

/-! ### The batch driver (`main`) -/

/-- One input file of the batch, with the outcome of `process_file` on it
(modelled abstractly: either the error message of the raised exception, or
the path of the produced PDF). -/
structure FileJob where
  name : String
  result : Except String String

/-- The diagnostic printed by `main` before re-raising. -/
def diagMsg (name msg : String) : String :=
  "ERRORE durante l'elaborazione di " ++ name ++ ": " ++ msg

/-- The `for f in files: try: ... except: print(...); raise` loop of `main`:
returns the printed error diagnostics and either the list of created PDFs or
the first failure (file name and error), which aborts the remaining files. -/
def mainLoop : List FileJob → List String × Except (String × String) (List String)
  | [] => ([], Except.ok [])
  | f :: fs =>
    match f.result with
    | Except.error e => ([diagMsg f.name e], Except.error (f.name, e))
    | Except.ok out =>
      let (diags, res) := mainLoop fs
      (diags,
        match res with
        | Except.ok outs => Except.ok (out :: outs)
        | Except.error x => Except.error x)

/-- The end-to-end demo input of the specification: three report lines, the
second duplicating the first's `(guaranteeNumber, suffix, job)` key. -/
def demoText : String :=
  "0000123 001 1 100\n0000123 001 1 999\n0000123 002 1 50"

/-! ## Theorems -/

/-! ### Rounding -/

theorem roundHalfAwayZ_intCast (n : ℤ) : roundHalfAwayZ (n : ℚ) = n := by
  unfold roundHalfAwayZ
  rcases le_or_lt 0 (n : ℚ) with h | h
  · rw [if_pos h, Int.floor_int_add]
    norm_num
  · rw [if_neg (not_le.mpr h), show ((n : ℚ) - 1 / 2) = -(1 / 2) + (n : ℚ) by ring,
      Int.ceil_add_int]
    norm_num

theorem quantize2_int (n : ℤ) (q : ℚ) (h : q * 100 = (n : ℚ)) :
    quantize2 q = (n : ℚ) / 100 := by
  unfold quantize2
  rw [h, roundHalfAwayZ_intCast]

/-- When `100·q` is an integer (the value already has at most two decimal
places), quantization does not change the value. -/
theorem quantize2_eq_self (n : ℤ) (q : ℚ) (h : q * 100 = (n : ℚ)) :
    quantize2 q = q := by
  rw [quantize2_int n q h, ← h]
  ring

/-! ### The totals calculator (claims C4 and C9) -/

/-- C4.  For every `RecordSet` whose `jobTotal` values sum to `total`, the
calculator yields `tax = quantize2 (total · 0.22)` and
`totalWithTax = quantize2 (total + tax)`, with quantization rounding half
away from zero to two decimal places over exact rational (fixed-point)
arithmetic; in particular `total = 100` gives `tax = 22.00` and
`totalWithTax = 122.00`, and `total = -50` gives `tax = -11.00` and
`totalWithTax = -61.00`. -/
theorem calculator_tax_and_total (rs : List Record) (total : ℤ)
    (h : totale rs = total) :
    iva rs = quantize2 ((total : ℚ) * (22 / 100))
  ∧ ivato rs = quantize2 ((total : ℚ) + iva rs)
  ∧ (total = 100 → iva rs = 22 ∧ ivato rs = 122)
  ∧ (total = -50 → iva rs = -11 ∧ ivato rs = -61) := by
  subst h
  refine ⟨rfl, rfl, ?_, ?_⟩
  · intro h100
    have hiva : iva rs = 22 := by
      rw [iva, h100, quantize2_int 2200 _ (by norm_num)]
      norm_num
    refine ⟨hiva, ?_⟩
    rw [ivato, h100, hiva, quantize2_int 12200 _ (by norm_num)]
    norm_num
  · intro h50
    have hiva : iva rs = -11 := by
      rw [iva, h50, quantize2_int (-1100) _ (by norm_num)]
      norm_num
    refine ⟨hiva, ?_⟩
    rw [ivato, h50, hiva, quantize2_int (-6100) _ (by norm_num)]
    norm_num

theorem calculator_tax_and_total_witness :
    iva [⟨"0000123", "001", 1, 100⟩] = 22 ∧ ivato [⟨"0000123", "001", 1, 100⟩] = 122 :=
  (calculator_tax_and_total [⟨"0000123", "001", 1, 100⟩] 100 (by decide)).2.2.1 rfl

/-- C9.  The summed total is an integer, so `total * 0.22` has at most two
decimal digits and both quantization steps are no-ops: the tax is exactly
`total · 22/100` and the tax-inclusive total is exactly `total + tax`. -/
theorem quantization_is_noop (rs : List Record) :
    iva rs = (totale rs : ℚ) * (22 / 100)
  ∧ ivato rs = (totale rs : ℚ) + iva rs
  ∧ iva rs = ((22 * totale rs : ℤ) : ℚ) / 100 := by
  have h1 : ((totale rs : ℚ) * (22 / 100)) * 100 = ((22 * totale rs : ℤ) : ℚ) := by
    push_cast
    ring
  have hiva : iva rs = (totale rs : ℚ) * (22 / 100) := by
    rw [iva, quantize2_eq_self (22 * totale rs) _ h1]
  refine ⟨hiva, ?_, ?_⟩
  · have h2 : ((totale rs : ℚ) + iva rs) * 100 = ((122 * totale rs : ℤ) : ℚ) := by
      rw [hiva]
      push_cast
      ring
    rw [ivato, quantize2_eq_self (122 * totale rs) _ h2]
  · rw [hiva]
    push_cast
    ring

/-! ### Currency formatting (claim C5) -/

/-- C5 (divergence witness).  The formatter groups thousands with `'.'`,
uses `','` as the decimal separator and always prints two decimals — but the
appended currency suffix is the source file's literal `" â‚¬"` (the UTF-8
bytes of `'€'` misdecoded as cp1252), not `" €"`: the three sample values of
the claim all format with the mojibake suffix and differ from the claimed
strings. -/
theorem eur_fmt_mojibake_suffix :
    eur_fmt 1000 = String.mk ("1.000,00".data ++ euroSuffix)
  ∧ eur_fmt 0 = String.mk ("0,00".data ++ euroSuffix)
  ∧ eur_fmt (-61) = String.mk ("-61,00".data ++ euroSuffix)
  ∧ eur_fmt (12345 / 10) = String.mk ("1.234,50".data ++ euroSuffix)
  ∧ euroSuffix ≠ " €".data
  ∧ eur_fmt 1000 ≠ "1.000,00 €"
  ∧ eur_fmt 0 ≠ "0,00 €"
  ∧ eur_fmt (-61) ≠ "-61,00 €" := by
  have h1000 : eur_fmt 1000 = eur_fmtCents 100000 := by
    rw [eur_fmt, show ((1000 : ℚ) * 100) = ((100000 : ℤ) : ℚ) by norm_num,
      roundHalfAwayZ_intCast]
  have h0 : eur_fmt 0 = eur_fmtCents 0 := by
    rw [eur_fmt, show ((0 : ℚ) * 100) = ((0 : ℤ) : ℚ) by norm_num, roundHalfAwayZ_intCast]
  have h61 : eur_fmt (-61) = eur_fmtCents (-6100) := by
    rw [eur_fmt, show ((-61 : ℚ) * 100) = ((-6100 : ℤ) : ℚ) by norm_num,
      roundHalfAwayZ_intCast]
  have h1234 : eur_fmt (12345 / 10) = eur_fmtCents 123450 := by
    rw [eur_fmt, show ((12345 / 10 : ℚ) * 100) = ((123450 : ℤ) : ℚ) by norm_num,
      roundHalfAwayZ_intCast]
  refine ⟨?_, ?_, ?_, ?_, ?_, ?_, ?_, ?_⟩
  · rw [h1000]; decide
  · rw [h0]; decide
  · rw [h61]; decide
  · rw [h1234]; decide
  · decide
  · rw [h1000]; decide
  · rw [h0]; decide
  · rw [h61]; decide

/-! ### The end-to-end demo scenario (claim C1) -/

/-- C1 (counterexample).  On the demo input all three lines match the row
pattern, so the extractor finds 3 raw matches before dedup, not 2 as the
claim states. -/
theorem demo_three_raw_matches : (findAll demoText.data).length ≠ 2 := by
  decide

/-- C1 (amended).  On the demo input the extractor finds 3 raw matches
before dedup; the normalizer yields exactly 2 records (the jobTotal-999
duplicate dropped, the first record with jobTotal 100 kept) sorted
ascending by suffix, and the totals are `total = 150`, `tax = 33.00`,
`totalWithTax = 183.00`. -/
theorem demo_end_to_end :
    (findAll demoText.data).length = 3
  ∧ parse_txt demoText =
      Except.ok [⟨"0000123", "001", 1, 100⟩, ⟨"0000123", "002", 1, 50⟩]
  ∧ totale [⟨"0000123", "001", 1, 100⟩, ⟨"0000123", "002", 1, 50⟩] = 150
  ∧ iva [⟨"0000123", "001", 1, 100⟩, ⟨"0000123", "002", 1, 50⟩] = 33
  ∧ ivato [⟨"0000123", "001", 1, 100⟩, ⟨"0000123", "002", 1, 50⟩] = 183 := by
  have htot : totale [⟨"0000123", "001", 1, 100⟩, ⟨"0000123", "002", 1, 50⟩] = 150 := by
    decide
  have hiva : iva [⟨"0000123", "001", 1, 100⟩, ⟨"0000123", "002", 1, 50⟩] = 33 := by
    rw [iva, htot, quantize2_int 3300 _ (by norm_num)]
    norm_num
  refine ⟨by decide, by rfl, htot, hiva, ?_⟩
  rw [ivato, htot, hiva, quantize2_int 18300 _ (by norm_num)]
  norm_num

/-! ### Shape of extracted records (claim C10 groundwork) -/

theorem takeDigitsN_spec :
    ∀ (n : Nat) (cs ds rest : List Char), takeDigitsN n cs = some (ds, rest) →
      ds.length = n ∧ ds.all Char.isDigit = true := by
  intro n
  induction n with
  | zero =>
    intro cs ds rest h
    simp only [takeDigitsN, Option.some.injEq, Prod.mk.injEq] at h
    simp [← h.1]
  | succ k ih =>
    intro cs ds rest h
    cases cs with
    | nil => simp [takeDigitsN] at h
    | cons c cs' =>
      simp only [takeDigitsN] at h
      by_cases hc : c.isDigit
      · rw [if_pos hc] at h
        cases hrec : takeDigitsN k cs' with
        | none => rw [hrec] at h; simp at h
        | some p =>
          obtain ⟨ds', rest'⟩ := p
          rw [hrec] at h
          simp only [Option.some.injEq, Prod.mk.injEq] at h
          obtain ⟨h1, h2⟩ := h
          obtain ⟨hl, hd⟩ := ih cs' ds' rest' hrec
          subst h1
          simp [hl, hc, hd]
      · rw [if_neg hc] at h
        simp at h

theorem spanDigits1_spec (cs ds rest : List Char) (h : spanDigits1 cs = some (ds, rest)) :
    ds ≠ [] ∧ ds.all Char.isDigit = true := by
  cases cs with
  | nil => simp [spanDigits1] at h
  | cons c cs' =>
    simp only [spanDigits1] at h
    by_cases hc : c.isDigit
    · rw [if_pos hc] at h
      simp only [Option.some.injEq, Prod.mk.injEq] at h
      obtain ⟨h1, -⟩ := h
      subst h1
      constructor
      · simp [List.takeWhile_cons_of_pos hc]
      · rw [List.all_eq_true]
        intro a ha
        exact List.mem_takeWhile_imp ha
    · rw [if_neg hc] at h
      simp at h

theorem matchRow_wf (cs0 : List Char) (m : RawMatch) (rest : List Char)
    (h : matchRow cs0 = some (m, rest)) : m.wfB = true := by
  rw [matchRow] at h
  cases h1 : takeDigitsN 7 (cs0.dropWhile isWS) with
  | none => rw [h1] at h; simp at h
  | some p1 =>
    obtain ⟨g, cs2⟩ := p1
    rw [h1] at h
    simp only at h
    cases h2 : spanWS1 cs2 with
    | none => rw [h2] at h; simp at h
    | some cs3 =>
      rw [h2] at h
      simp only at h
      cases h3 : spanDigits1 cs3 with
      | none => rw [h3] at h; simp at h
      | some p2 =>
        obtain ⟨s, cs4⟩ := p2
        rw [h3] at h
        simp only at h
        cases h4 : spanWS1 cs4 with
        | none => rw [h4] at h; simp at h
        | some cs5 =>
          rw [h4] at h
          simp only at h
          cases h5 : spanDigits1 cs5 with
          | none => rw [h5] at h; simp at h
          | some p3 =>
            obtain ⟨j, cs6⟩ := p3
            rw [h5] at h
            simp only at h
            cases h6 : spanWS1 cs6 with
            | none => rw [h6] at h; simp at h
            | some cs7 =>
              rw [h6] at h
              simp only at h
              obtain ⟨hg7, hgd⟩ := takeDigitsN_spec 7 _ g cs2 h1
              obtain ⟨hsne, hsd⟩ := spanDigits1_spec cs3 s cs4 h3
              have hwf : ∀ t : List Char, RawMatch.wfB ⟨g, s, j, t⟩ = true := by
                intro t
                simp [RawMatch.wfB, hg7, hgd, hsd, List.isEmpty_eq_false, hsne]
              cases h7 : spanDigits1 (splitSign cs7).2 with
              | none => rw [h7] at h; simp at h
              | some p4 =>
                obtain ⟨t, cs9⟩ := p4
                rw [h7] at h
                simp only at h
                cases cs9 with
                | nil =>
                  simp only [Option.some.injEq, Prod.mk.injEq] at h
                  rw [← h.1]
                  apply hwf
                | cons c9 cs9' =>
                  by_cases hw : isWordChar c9
                  · simp [hw] at h
                  · simp only [hw, Bool.false_eq_true, if_false, ite_false,
                      Option.some.injEq, Prod.mk.injEq] at h
                    rw [← h.1]
                    apply hwf

theorem scanAux_wf :
    ∀ (fuel : Nat) (st : Bool) (cs : List Char) (m : RawMatch),
      m ∈ scanAux fuel st cs → m.wfB = true := by
  intro fuel
  induction fuel with
  | zero => intro st cs m h; simp [scanAux] at h
  | succ k ih =>
    intro st cs m h
    cases cs with
    | nil => simp [scanAux] at h
    | cons c cs' =>
      simp only [scanAux] at h
      cases st with
      | false =>
        simp only [Bool.false_eq_true, if_false, ite_false] at h
        exact ih _ _ _ h
      | true =>
        simp only [if_true, ite_true] at h
        cases hm : matchRow (c :: cs') with
        | none =>
          rw [hm] at h
          exact ih _ _ _ h
        | some p =>
          obtain ⟨m', rem⟩ := p
          rw [hm] at h
          rcases List.mem_cons.mp h with h | h
          · subst h
            exact matchRow_wf _ _ _ hm
          · exact ih _ _ _ h

theorem rawRecords_wf (text : String) : ∀ r ∈ rawRecords text, r.wfB = true := by
  intro r hr
  obtain ⟨m, hm, hmr⟩ := List.mem_map.mp hr
  have hwf := scanAux_wf _ _ _ m hm
  subst hmr
  simp only [RawMatch.wfB, Bool.and_eq_true, beq_iff_eq, List.all_eq_true,
    Bool.not_eq_true', List.isEmpty_eq_false] at hwf
  simp [toRecord, Record.wfB, hwf, List.isEmpty_eq_false,
    List.all_eq_true]
  exact ⟨hwf.1.1.2, hwf.2⟩

/-! ### Deduplication theory (claim C2 groundwork) -/

theorem dedupeAux_congr :
    ∀ (l : List Record) (seen₁ seen₂ : List (String × String × Int)),
      (∀ k, k ∈ seen₁ ↔ k ∈ seen₂) → dedupeAux seen₁ l = dedupeAux seen₂ l := by
  intro l
  induction l with
  | nil => intro _ _ _; rfl
  | cons r rs ih =>
    intro s1 s2 h
    simp only [dedupeAux]
    by_cases hk : dedupKey r ∈ s1
    · rw [if_pos hk, if_pos ((h _).mp hk)]
      exact ih s1 s2 h
    · rw [if_neg hk, if_neg (fun hc => hk ((h _).mpr hc))]
      rw [ih (dedupKey r :: s1) (dedupKey r :: s2) (fun k => by simp [h k])]

theorem dedupeAux_cons_filter :
    ∀ (l : List Record) (k : String × String × Int) (seen : List (String × String × Int)),
      dedupeAux (k :: seen) l = dedupeAux seen (l.filter fun x => !(dedupKey x == k)) := by
  intro l
  induction l with
  | nil => intro k seen; rfl
  | cons r rs ih =>
    intro k seen
    by_cases hrk : dedupKey r = k
    · rw [List.filter_cons_of_neg (by simp [hrk])]
      simp only [dedupeAux, List.mem_cons]
      rw [if_pos (Or.inl hrk)]
      exact ih k seen
    · rw [List.filter_cons_of_pos (by simp [hrk])]
      simp only [dedupeAux, List.mem_cons]
      by_cases hseen : dedupKey r ∈ seen
      · rw [if_pos (Or.inr hseen), if_pos hseen]
        exact ih k seen
      · rw [if_neg (by rintro (h | h); exact hrk h; exact hseen h), if_neg hseen]
        rw [dedupeAux_congr rs (dedupKey r :: k :: seen) (k :: dedupKey r :: seen)
          (fun x => by simp; tauto)]
        rw [ih k (dedupKey r :: seen)]

theorem dedupe_cons (r : Record) (rs : List Record) :
    dedupe (r :: rs) = r :: dedupe (rs.filter fun x => !(dedupKey x == dedupKey r)) := by
  simp only [dedupe, dedupeAux]
  rw [if_neg (List.not_mem_nil _)]
  rw [dedupeAux_cons_filter rs _ []]

/-- The source-side first-seen-wins filter coincides with the spec-side
description of deduplication. -/
theorem dedupe_eq_dedupeSpec : ∀ l : List Record, dedupe l = dedupeSpec l := by
  intro l
  induction l using dedupeSpec.induct with
  | case1 => rw [dedupeSpec]; rfl
  | case2 r rs ih => rw [dedupe_cons, dedupeSpec, ih]

theorem dedupeAux_sublist : ∀ (l : List Record) (seen), dedupeAux seen l <+ l := by
  intro l
  induction l with
  | nil => intro seen; simp [dedupeAux]
  | cons r rs ih =>
    intro seen
    simp only [dedupeAux]
    by_cases hk : dedupKey r ∈ seen
    · rw [if_pos hk]
      exact (ih seen).trans (List.sublist_cons_self r rs)
    · rw [if_neg hk]
      exact List.Sublist.cons₂ r (ih _)

theorem dedupe_sublist (l : List Record) : dedupe l <+ l :=
  dedupeAux_sublist l []

theorem dedupe_subset {l : List Record} {r : Record} (h : r ∈ dedupe l) : r ∈ l :=
  (dedupe_sublist l).subset h

theorem dedupe_ne_nil {l : List Record} (h : l ≠ []) : dedupe l ≠ [] := by
  cases l with
  | nil => exact absurd rfl h
  | cons r rs =>
    rw [dedupe_cons]
    exact List.cons_ne_nil _ _

/-- A record whose key already occurred earlier is dropped: removing it does
not change the dedup result. -/
theorem dedupeAux_drop :
    ∀ (xs : List Record) (seen) (b : Record) (ys : List Record),
      (dedupKey b ∈ seen ∨ ∃ x ∈ xs, dedupKey x = dedupKey b) →
      dedupeAux seen (xs ++ b :: ys) = dedupeAux seen (xs ++ ys) := by
  intro xs
  induction xs with
  | nil =>
    intro seen b ys h
    rcases h with h | ⟨x, hx, -⟩
    · simp only [List.nil_append, dedupeAux]
      rw [if_pos h]
    · simp at hx
  | cons x xs' ih =>
    intro seen b ys h
    simp only [List.cons_append, dedupeAux]
    by_cases hk : dedupKey x ∈ seen
    · rw [if_pos hk, if_pos hk]
      apply ih
      rcases h with h | ⟨x', hx', he⟩
      · exact Or.inl h
      · rcases List.mem_cons.mp hx' with rfl | hx'
        · exact Or.inl (by rwa [← he])
        · exact Or.inr ⟨x', hx', he⟩
    · rw [if_neg hk, if_neg hk]
      congr 1
      apply ih
      rcases h with h | ⟨x', hx', he⟩
      · exact Or.inl (List.mem_cons_of_mem _ h)
      · rcases List.mem_cons.mp hx' with rfl | hx'
        · exact Or.inl (by rw [← he]; exact List.mem_cons_self _ _)
        · exact Or.inr ⟨x', hx', he⟩

/-! ### Numeric columns and the comparator (claims C3/C7 groundwork) -/

theorem wfB_fields {r : Record} (h : r.wfB = true) :
    (r.guaranteeNumber.data.length = 7 ∧ r.guaranteeNumber.data.all Char.isDigit = true)
  ∧ (r.suffix.data ≠ [] ∧ r.suffix.data.all Char.isDigit = true) := by
  simp only [Record.wfB, Bool.and_eq_true, decide_eq_true_eq, Bool.not_eq_true',
    List.isEmpty_eq_false] at h
  exact ⟨⟨h.1.1.1, h.1.1.2⟩, h.1.2, h.2⟩

theorem toNumericZ_isSome_of_digits (s : String) (h1 : s.data ≠ [])
    (h2 : s.data.all Char.isDigit = true) : (toNumericZ s).isSome = true := by
  cases hd : s.data with
  | nil => exact absurd hd h1
  | cons c rest =>
    rw [hd] at h2
    simp only [List.all_cons, Bool.and_eq_true] at h2
    have hc : ¬ c = '-' := by
      intro hcc
      rw [hcc] at h2
      exact absurd h2.1 (by decide)
    simp only [toNumericZ, hd]
    rw [if_neg hc, if_pos]
    · rfl
    · simp [h2.1, h2.2]

theorem colNumeric_of_wf (get : Record → String) (rs : List Record)
    (hget : ∀ r ∈ rs, (get r).data ≠ [] ∧ (get r).data.all Char.isDigit = true) :
    colNumeric get rs = true := by
  rw [colNumeric, List.all_eq_true]
  intro r hr
  exact toNumericZ_isSome_of_digits _ (hget r hr).1 (hget r hr).2

theorem rowLe_trans {a b c : Record} (hab : rowLe true true a b = true)
    (hbc : rowLe true true b c = true) : rowLe true true a c = true := by
  simp only [rowLe, fieldLtB, fieldEqB, if_true, Bool.or_eq_true, Bool.and_eq_true,
    decide_eq_true_eq] at *
  omega

theorem rowLe_total (a b : Record) :
    rowLe true true a b = true ∨ rowLe true true b a = true := by
  simp only [rowLe, fieldLtB, fieldEqB, if_true, Bool.or_eq_true, Bool.and_eq_true,
    decide_eq_true_eq]
  omega

/-! ### The normalizer (claims C3/C7/C10 groundwork) -/

theorem normalize_perm_dedupe (l : List Record) : normalize l ~ dedupe l := by
  simp only [normalize]
  exact List.perm_insertionSort _ _

/-- On well-formed record sets (the only ones the extractor produces) both
sort columns convert to numbers, so the normalizer sorts with the numeric
three-key comparator. -/
theorem normalize_eq_of_wf (l : List Record) (h : ∀ r ∈ l, r.wfB = true) :
    normalize l = List.insertionSort (rowLeR true true) (dedupe l) := by
  have hd : ∀ r ∈ dedupe l, r.wfB = true := fun r hr => h r (dedupe_subset hr)
  have hg : colNumeric (fun r => r.guaranteeNumber) (dedupe l) = true := by
    apply colNumeric_of_wf
    intro r hr
    obtain ⟨⟨h7, hdg⟩, -⟩ := wfB_fields (hd r hr)
    refine ⟨?_, hdg⟩
    rw [← List.length_pos]
    omega
  have hs : colNumeric (fun r => r.suffix) (dedupe l) = true := by
    apply colNumeric_of_wf
    intro r hr
    exact (wfB_fields (hd r hr)).2
  simp only [normalize]
  rw [hg, hs]

/-! ### Claim C2: deduplication is a stable first-seen-wins filter -/

/-- C2.  Normalization's dedup stage removes exactly those records whose
`(guaranteeNumber, suffix, job)` triple equals the triple of an earlier
record: it coincides with the spec-side first-seen-wins description
`dedupeSpec`, it is an order-preserving filter (a sublist of its input), and
a record whose key duplicates an earlier record's key is dropped — in
particular, of two records with identical key triples only the
first-occurring one is kept, whatever their `jobTotal`s. -/
theorem dedupe_first_seen_wins (l : List Record) :
    dedupe l = dedupeSpec l
  ∧ dedupe l <+ l
  ∧ (∀ (l₁ l₂ l₃ : List Record) (a b : Record),
      l = l₁ ++ a :: l₂ ++ b :: l₃ → dedupKey a = dedupKey b →
      dedupe l = dedupe (l₁ ++ a :: l₂ ++ l₃)) := by
  refine ⟨dedupe_eq_dedupeSpec l, dedupe_sublist l, ?_⟩
  intro l₁ l₂ l₃ a b hl hk
  subst hl
  simp only [dedupe]
  rw [show l₁ ++ a :: l₂ ++ b :: l₃ = (l₁ ++ a :: l₂) ++ b :: l₃ by simp,
    dedupeAux_drop (l₁ ++ a :: l₂) [] b l₃ (Or.inr ⟨a, by simp, hk⟩)]

theorem dedupe_first_seen_wins_witness :
    dedupe [⟨"0000123", "001", 1, 100⟩, ⟨"0000123", "001", 1, 999⟩] =
      dedupe [⟨"0000123", "001", 1, 100⟩] :=
  (dedupe_first_seen_wins [⟨"0000123", "001", 1, 100⟩, ⟨"0000123", "001", 1, 999⟩]).2.2
    [] [] [] ⟨"0000123", "001", 1, 100⟩ ⟨"0000123", "001", 1, 999⟩ rfl rfl

/-! ### Claim C3: the normalizer's output is sorted ascending -/

/-- C3.  On every well-formed `RecordSet` (the data-model shape: a 7-digit
guarantee number and a non-empty all-digit suffix, so that every sort column
parses as a number and the numeric comparison branch applies), the
normalizer's output is the dedup survivors reordered ascending under the
three-key comparison (guaranteeNumber, then suffix, then job) with numeric
keys. -/
theorem normalizer_sorted (l : List Record) (h : ∀ r ∈ l, r.wfB = true) :
    normalize l = List.insertionSort (rowLeR true true) (dedupe l)
  ∧ List.Sorted (rowLeR true true) (normalize l)
  ∧ normalize l ~ dedupe l := by
  have he := normalize_eq_of_wf l h
  refine ⟨he, ?_, normalize_perm_dedupe l⟩
  rw [he]
  haveI : IsTotal Record (rowLeR true true) := ⟨fun a b => rowLe_total a b⟩
  haveI : IsTrans Record (rowLeR true true) := ⟨fun _ _ _ hab hbc => rowLe_trans hab hbc⟩
  exact List.sorted_insertionSort _ _

theorem normalizer_sorted_witness :
    (normalize [⟨"0000123", "10", 1, 5⟩, ⟨"0000123", "2", 1, 7⟩] =
        List.insertionSort (rowLeR true true)
          (dedupe [⟨"0000123", "10", 1, 5⟩, ⟨"0000123", "2", 1, 7⟩])
      ∧ List.Sorted (rowLeR true true)
          (normalize [⟨"0000123", "10", 1, 5⟩, ⟨"0000123", "2", 1, 7⟩])
      ∧ normalize [⟨"0000123", "10", 1, 5⟩, ⟨"0000123", "2", 1, 7⟩] ~
          dedupe [⟨"0000123", "10", 1, 5⟩, ⟨"0000123", "2", 1, 7⟩])
  ∧ normalize [⟨"0000123", "10", 1, 5⟩, ⟨"0000123", "2", 1, 7⟩] =
      [⟨"0000123", "2", 1, 7⟩, ⟨"0000123", "10", 1, 5⟩] :=
  ⟨normalizer_sorted [⟨"0000123", "10", 1, 5⟩, ⟨"0000123", "2", 1, 7⟩] (by decide), by decide⟩

/-! ### Claim C7: the normalizer's sort is stable -/

/-- C7.  The sort performed by the normalizer is stable: on a well-formed
`RecordSet`, any two records that compare equal under the three-key
comparator (`rowLe` holds both ways) and stand in a given order among the
dedup survivors keep that relative order in the normalizer's output.
(Determinism of the dedupe-then-sort composition is inherent to the model:
`normalize` is a function.) -/
theorem normalizer_sort_stable (l : List Record) (a b : Record)
    (h : ∀ r ∈ l, r.wfB = true)
    (hab : rowLe true true a b = true) (_hba : rowLe true true b a = true)
    (hsub : [a, b] <+ dedupe l) :
    [a, b] <+ normalize l := by
  rw [normalize_eq_of_wf l h]
  exact List.pair_sublist_insertionSort hab hsub

theorem normalizer_sort_stable_witness :
    [(⟨"0000123", "07", 1, 5⟩ : Record), ⟨"0000123", "7", 1, 9⟩] <+
      normalize [⟨"0000123", "07", 1, 5⟩, ⟨"0000123", "7", 1, 9⟩] :=
  normalizer_sort_stable [⟨"0000123", "07", 1, 5⟩, ⟨"0000123", "7", 1, 9⟩]
    ⟨"0000123", "07", 1, 5⟩ ⟨"0000123", "7", 1, 9⟩ (by decide) (by decide) (by decide)
    (by rw [show dedupe [(⟨"0000123", "07", 1, 5⟩ : Record), ⟨"0000123", "7", 1, 9⟩] =
          [⟨"0000123", "07", 1, 5⟩, ⟨"0000123", "7", 1, 9⟩] from rfl])

/-! ### Claim C6: the no-valid-records error -/

/-- C6.  Extraction fails with the no-valid-records error exactly when the
row pattern matches nowhere in the input text; when at least one match
exists, `parse_txt` succeeds (non-matching content is skipped silently — it
simply contributes no matches). -/
theorem no_valid_records (text : String) :
    (parse_txt text = Except.error NoValidRecordsMsg ↔ findAll text.data = [])
  ∧ (findAll text.data ≠ [] →
      parse_txt text = Except.ok (normalize ((findAll text.data).map toRecord))) := by
  constructor
  · constructor
    · intro h
      by_contra hne
      rw [parse_txt, if_neg (by simp [List.isEmpty_iff]; exact hne)] at h
      exact Except.noConfusion h
    · intro h
      rw [parse_txt, if_pos (by simp [List.isEmpty_iff, h])]
  · intro h
    rw [parse_txt, if_neg (by simp [List.isEmpty_iff]; exact h)]

theorem no_valid_records_witness :
    parse_txt "Report: nessun dato valido." = Except.error NoValidRecordsMsg
  ∧ parse_txt demoText = Except.ok (normalize ((findAll demoText.data).map toRecord)) :=
  ⟨(no_valid_records "Report: nessun dato valido.").1.mpr (by decide),
   (no_valid_records demoText).2 (by decide)⟩

/-! ### Claim C8: the batch driver fails fast -/

theorem mainLoop_ok_front :
    ∀ pre : List FileJob, (∀ x ∈ pre, ∃ o, x.result = Except.ok o) →
      ∀ (rest : List FileJob) (msgs : List String) (err : String × String),
        mainLoop rest = (msgs, Except.error err) →
        mainLoop (pre ++ rest) = (msgs, Except.error err) := by
  intro pre
  induction pre with
  | nil =>
    intro _ rest msgs err h
    simpa using h
  | cons x pre' ih =>
    intro hpre rest msgs err h
    obtain ⟨o, ho⟩ := hpre x (List.mem_cons_self x pre')
    simp only [List.cons_append, mainLoop, ho, List.append_eq]
    rw [ih (fun y hy => hpre y (List.mem_cons_of_mem x hy)) rest msgs err h]

/-- C8.  If processing one input file fails, the driver prints one
diagnostic naming the offending file, re-raises the failure, and never
touches the remaining files of the batch (the files after the failing one do
not influence the result at all). -/
theorem fail_fast_batch (pre post : List FileJob) (f : FileJob) (e : String)
    (hpre : ∀ x ∈ pre, ∃ o, x.result = Except.ok o)
    (hf : f.result = Except.error e) :
    mainLoop (pre ++ f :: post) = ([diagMsg f.name e], Except.error (f.name, e))
  ∧ ∃ s t : String, diagMsg f.name e = s ++ f.name ++ t := by
  constructor
  · apply mainLoop_ok_front pre hpre
    simp only [mainLoop, hf]
  · exact ⟨"ERRORE durante l'elaborazione di ", ": " ++ e, by
      simp [diagMsg, String.append_assoc]⟩

theorem fail_fast_batch_witness :
    mainLoop [⟨"a.txt", Except.ok "a_Riepilogo_Garanzie.pdf"⟩,
        ⟨"b.txt", Except.error "errore di prova"⟩,
        ⟨"c.txt", Except.ok "c_Riepilogo_Garanzie.pdf"⟩] =
      ([diagMsg "b.txt" "errore di prova"], Except.error ("b.txt", "errore di prova")) :=
  (fail_fast_batch [⟨"a.txt", Except.ok "a_Riepilogo_Garanzie.pdf"⟩]
    [⟨"c.txt", Except.ok "c_Riepilogo_Garanzie.pdf"⟩]
    ⟨"b.txt", Except.error "errore di prova"⟩ "errore di prova"
    (by
      intro x hx
      rw [List.mem_singleton] at hx
      subst hx
      exact ⟨_, rfl⟩)
    rfl).1

/-! ### Claim C10: invariants of extractor output -/

/-- C10.  Every `RecordSet` returned by the extractor is non-empty; in every
record the guarantee number is exactly 7 digit characters and the suffix is
a non-empty digit string (`job` and `jobTotal` are integers by
construction), and consequently both string sort columns convert to numbers
and the normalizer takes the numeric-comparison branch (`rowLeR true true`),
never the raw-text fallback. -/
theorem extractor_output_invariants (text : String) (rs : List Record)
    (h : parse_txt text = Except.ok rs) :
    rs ≠ []
  ∧ (∀ r ∈ rs, r.wfB = true)
  ∧ rs = List.insertionSort (rowLeR true true) (dedupe (rawRecords text)) := by
  rw [parse_txt] at h
  by_cases hne : (findAll text.data).isEmpty = true
  · rw [if_pos hne] at h
    exact Except.noConfusion h
  · rw [if_neg hne] at h
    have hrs : rs = normalize (rawRecords text) := by
      cases h
      rfl
    have hwfraw := rawRecords_wf text
    have hwf : ∀ r ∈ rs, r.wfB = true := by
      intro r hr
      rw [hrs] at hr
      exact hwfraw r (dedupe_subset ((normalize_perm_dedupe _).mem_iff.mp hr))
    have hraw_ne : rawRecords text ≠ [] := by
      rw [rawRecords]
      simp only [ne_eq, List.map_eq_nil_iff]
      simpa [List.isEmpty_iff] using hne
    refine ⟨?_, hwf, ?_⟩
    · have hlen : rs.length = (dedupe (rawRecords text)).length := by
        rw [hrs]
        exact (normalize_perm_dedupe _).length_eq
      intro hnil
      rw [hnil] at hlen
      exact dedupe_ne_nil hraw_ne (List.length_eq_zero.mp hlen.symm)
    · rw [hrs]
      exact normalize_eq_of_wf _ hwfraw

theorem extractor_output_invariants_witness :
    ([⟨"0000123", "001", 1, 100⟩, ⟨"0000123", "002", 1, 50⟩] : List Record) ≠ []
  ∧ (∀ r ∈ ([⟨"0000123", "001", 1, 100⟩, ⟨"0000123", "002", 1, 50⟩] : List Record),
      r.wfB = true)
  ∧ ([⟨"0000123", "001", 1, 100⟩, ⟨"0000123", "002", 1, 50⟩] : List Record) =
      List.insertionSort (rowLeR true true) (dedupe (rawRecords demoText)) :=
  extractor_output_invariants demoText
    [⟨"0000123", "001", 1, 100⟩, ⟨"0000123", "002", 1, 50⟩] (by rfl)

end Riepilogo
